import Mathlib

/-!
Shallow embedding of the synchronization core of `daily_journal_win.py`
(class `NetworkJournal`, plus the id generation in `JournalUI.create_new_entry`).

Python dictionaries are modelled as association lists with unique keys
(`List (String × α)`), with lookup returning the first matching binding,
assignment replacing the binding in place, and deletion removing the binding.
The on-disk cache directory `data/` is modelled as an association list from
file name (the entry id, the `.json` extension stripped) to the parse outcome
of the file: `some e` when `json.load` succeeds and yields entry `e`, `none`
when it raises.

Remote HTTP calls are modelled by their observable outcome: a `requests`
exception, or a response with a status code and (for GET /entries) a parsed
body.  Timestamp strings are ordered through a model of
`datetime.fromisoformat` covering the forms `datetime.now().isoformat()`
emits — `YYYY-MM-DDTHH:MM:SS` with an optional six-digit fractional-second
field — with full calendar validation; a string outside that domain is
treated as a parse failure, i.e. a raised `ValueError`.
-/

namespace NEther

/-- A journal entry as it travels through the system: a JSON object whose
fields `content`, `created_at` and `updated_at` may each be present or
absent (`'updated_at' in content` in the source is `updated_at.isSome`
here). -/
structure Entry where
  content : Option String := none
  created_at : Option String := none
  updated_at : Option String := none
  deriving DecidableEq, Repr

/-- Python `d[key]` lookup (as an `Option`): first binding with the key. -/
def dget {α : Type} : List (String × α) → String → Option α
  | [], _ => none
  | (k, v) :: rest, key => if k = key then some v else dget rest key

/-- Python `key in d`. -/
def dcontains {α : Type} (m : List (String × α)) (key : String) : Bool :=
  (dget m key).isSome

/-- Python `d[key] = v`: replace the binding in place when the key is
present, append it otherwise. -/
def dset {α : Type} : List (String × α) → String → α → List (String × α)
  | [], key, v => [(key, v)]
  | (k, w) :: rest, key, v =>
    if k = key then (k, v) :: rest else (k, w) :: dset rest key v

/-- Python `del d[key]` (and `os.remove`): drop the binding for the key.
On maps with unique keys — the only maps a Python dict can be — dropping
every binding for the key coincides with dropping the single one. -/
def ddel {α : Type} : List (String × α) → String → List (String × α)
  | [], _ => []
  | (k, w) :: rest, key =>
    if k = key then ddel rest key else (k, w) :: ddel rest key

/-- The key list of a map, in order. -/
def dkeys {α : Type} (m : List (String × α)) : List String :=
  m.map Prod.fst

/-- The in-memory `self.entries` dictionary. -/
abbrev EntrySet := List (String × Entry)

/-- The local cache directory `data/`: file name (id) to parse outcome of
the file's JSON (`none` models a file on which `json.load` raises). -/
abbrev Disk := List (String × Option Entry)

/-- Numeric value of a decimal digit character. -/
def digitVal (c : Char) : Nat := c.toNat - 48

/-- Whether a character is a decimal digit. -/
def isDigitChar (c : Char) : Bool := 48 ≤ c.toNat && c.toNat ≤ 57

/-- Whether a year is a leap year in the proleptic Gregorian calendar,
exactly as Python's `datetime` decides it when validating a date. -/
def isLeapYear (y : Nat) : Bool :=
  y % 4 == 0 && (y % 100 != 0 || y % 400 == 0)

/-- The number of days of a month, exactly as Python's `datetime` validates
dates (`day is out of range for month` otherwise). -/
def daysInMonth (y m : Nat) : Nat :=
  if m = 2 then (if isLeapYear y then 29 else 28)
  else if m = 4 ∨ m = 6 ∨ m = 9 ∨ m = 11 then 30
  else 31

/-- The field validation Python's `datetime` constructor performs: year at
least 1 (at most 9999 is enforced by the four-digit parse), month 1–12,
day 1 to the month's length, hour 0–23, minute and second 0–59. -/
def validDateTime (year month day hour minute second : Nat) : Bool :=
  1 ≤ year && 1 ≤ month && month ≤ 12 && 1 ≤ day && day ≤ daysInMonth year month &&
  hour ≤ 23 && minute ≤ 59 && second ≤ 59

/-- The fractional-second tail of an ISO timestamp: empty (microsecond
field 0), or a dot followed by exactly six digits — the form
`datetime.isoformat()` emits when the microsecond field is nonzero. -/
def parseMicro : List Char → Option Nat
  | [] => some 0
  | ['.', u1, u2, u3, u4, u5, u6] =>
    if isDigitChar u1 && isDigitChar u2 && isDigitChar u3 && isDigitChar u4 &&
       isDigitChar u5 && isDigitChar u6 then
      some (((((digitVal u1 * 10 + digitVal u2) * 10 + digitVal u3) * 10 +
        digitVal u4) * 10 + digitVal u5) * 10 + digitVal u6)
    else none
  | _ => none

/-- Model of Python `datetime.fromisoformat` followed by `datetime`
comparison, on the timestamp forms this system exchanges:
`YYYY-MM-DDTHH:MM:SS` and `YYYY-MM-DDTHH:MM:SS.ffffff` — the exact outputs
of `datetime.now().isoformat()`, which appends a six-digit microsecond
field when it is nonzero and omits it when it is zero.  A conforming,
calendar-valid string (proleptic Gregorian with leap years, the validation
`datetime` performs) maps to its fields packed into a natural number whose
order agrees with `datetime` order across both forms; every other string
maps to `none`, modelling a raised `ValueError`.  Python additionally
accepts a few variants this model rejects — date-only strings, date-time
separators other than `T`, timezone offsets — which this application never
produces and no theorem below instantiates. -/
def fromisoformat (s : String) : Option Nat :=
  match s.data with
  | y1 :: y2 :: y3 :: y4 :: p1 :: m1 :: m2 :: p2 :: d1 :: d2 :: p3 ::
      h1 :: h2 :: p4 :: n1 :: n2 :: p5 :: c1 :: c2 :: rest =>
    match parseMicro rest with
    | none => none
    | some micro =>
      if p1 == '-' && p2 == '-' && p3 == 'T' && p4 == ':' && p5 == ':' &&
         isDigitChar y1 && isDigitChar y2 && isDigitChar y3 && isDigitChar y4 &&
         isDigitChar m1 && isDigitChar m2 && isDigitChar d1 && isDigitChar d2 &&
         isDigitChar h1 && isDigitChar h2 && isDigitChar n1 && isDigitChar n2 &&
         isDigitChar c1 && isDigitChar c2 then
        let year := ((digitVal y1 * 10 + digitVal y2) * 10 + digitVal y3) * 10 + digitVal y4
        let month := digitVal m1 * 10 + digitVal m2
        let day := digitVal d1 * 10 + digitVal d2
        let hour := digitVal h1 * 10 + digitVal h2
        let minute := digitVal n1 * 10 + digitVal n2
        let second := digitVal c1 * 10 + digitVal c2
        if validDateTime year month day hour minute second then
          some ((((((year * 100 + month) * 100 + day) * 100 + hour) * 100 + minute) * 100
            + second) * 1000000 + micro)
        else none
      else none
  | _ => none

/-- Outcome of one remote call whose response body is ignored
(`requests.post` / `requests.delete`): it either returns or raises a
`requests.RequestException`; the source inspects neither case. -/
inductive RemoteResult
  | ok
  | unavailable
  deriving DecidableEq, Repr

/-- Outcome of `requests.get(f"{server_url}/entries")`: a response carrying
a status code and a parsed JSON body, or a raised exception. -/
inductive FetchResult
  | response (status : Nat) (body : EntrySet)
  | exception
  deriving DecidableEq, Repr

/-- The state a `NetworkJournal` instance owns: the in-memory `entries`
dict and the local cache directory. -/
structure JState where
  entries : EntrySet
  disk : Disk
  deriving DecidableEq, Repr

/-- Lines 46–57 of `load_entries`: starting from `{}`, read every cache
file in directory order; a file whose JSON fails to parse is skipped (the
`except` prints and continues). -/
def load_cache_files : EntrySet → Disk → EntrySet
  | acc, [] => acc
  | acc, (name, parsed) :: rest =>
    match parsed with
    | some e => load_cache_files (dset acc name e) rest
    | none => load_cache_files acc rest

/-- The local bulk read (spec: `EntryStore.readAll`): `self.entries = {}`
followed by the per-file loop of `load_entries`. -/
def readAll (disk : Disk) : EntrySet :=
  load_cache_files [] disk

/-- `NetworkJournal.update_local_cache` (lines 59–67): write one cache file
per in-memory entry, touching no other file. -/
def update_local_cache (entries : EntrySet) (disk : Disk) : Disk :=
  entries.foldl (fun d kv => dset d kv.1 (some kv.2)) disk

/-- `NetworkJournal.load_entries` (lines 33–57): on a 200 response replace
`entries` wholesale with the body and rewrite the cache; on any exception
or non-200 status fall back to the local cache files, leaving the disk
untouched.  Every failure is caught: the function is total and surfaces no
error. -/
def load_entries (s : JState) (fetch : FetchResult) : JState :=
  match fetch with
  | .response 200 body => { entries := body, disk := update_local_cache body s.disk }
  | _ => { entries := readAll s.disk, disk := s.disk }

/-- `NetworkJournal.save_entry` (lines 69–87): set `entries[date_str]`,
attempt the remote POST with its result discarded and any
`requests.RequestException` swallowed, then unconditionally write the
cache file. -/
def save_entry (s : JState) (date_str : String) (content : Entry)
    (remote : RemoteResult) : JState :=
  let entries2 := dset s.entries date_str content
  match remote with
  | .ok => { entries := entries2, disk := dset s.disk date_str (some content) }
  | .unavailable => { entries := entries2, disk := dset s.disk date_str (some content) }

/-- `NetworkJournal.delete_entry` (lines 89–104): drop the in-memory
binding if present, attempt the remote DELETE (result discarded,
exceptions swallowed), then remove the cache file if it exists. -/
def delete_entry (s : JState) (date_str : String) (remote : RemoteResult) : JState :=
  let entries2 := ddel s.entries date_str
  match remote with
  | .ok => { entries := entries2, disk := ddel s.disk date_str }
  | .unavailable => { entries := entries2, disk := ddel s.disk date_str }

/-- The merge loop of `NetworkJournal.background_sync` (lines 120–128),
iterating over `server_entries.items()`.  The `Bool` is `true` when every
record was processed; it is `false` when `datetime.fromisoformat` raised on
a record's `updated_at` — the raised `ValueError` escapes the `for` loop
into the blanket `except Exception: pass`, so the records already merged
stay merged, the remaining records are never examined, and control leaves
the loop. -/
def merge_server_entries (entries : EntrySet) :
    List (String × Entry) → EntrySet × Bool
  | [] => (entries, true)
  | (date_str, content) :: rest =>
    match dget entries date_str with
    | none => merge_server_entries (dset entries date_str content) rest
    | some localEntry =>
      match content.updated_at, localEntry.updated_at with
      | some sraw, some lraw =>
        match fromisoformat sraw with
        | none => (entries, false)
        | some server_time =>
          match fromisoformat lraw with
          | none => (entries, false)
          | some local_time =>
            if local_time < server_time then
              merge_server_entries (dset entries date_str content) rest
            else
              merge_server_entries entries rest
      | _, _ => merge_server_entries entries rest

/-- One iteration of `NetworkJournal.background_sync` (lines 108–133) after
the sleep: on a 200 response run the merge under the lock and, when the
merge loop completed without raising, rewrite the cache; on an exception or
non-200 status do nothing until the next cycle. -/
def background_sync_step (s : JState) (fetch : FetchResult) : JState :=
  match fetch with
  | .response 200 body =>
    match merge_server_entries s.entries body with
    | (merged, true) => { entries := merged, disk := update_local_cache merged s.disk }
    | (merged, false) => { entries := merged, disk := s.disk }
  | _ => s

/-- The character for one decimal digit. -/
def digitChar (d : Nat) : Char := Char.ofNat (48 + d)

/-- Decimal rendering of a natural number, most significant digit first, as
Python `str` / an f-string produces it. -/
def natToStr (n : Nat) : String :=
  if n = 0 then "0"
  else String.mk (((Nat.digits 10 n).map digitChar).reverse)

/-- The candidate ids tried by `JournalUI.create_new_entry` (lines 320–328):
today's date itself, then the f-string joining `base_date`, an underscore and
`counter` for `counter = 1, 2, …`. -/
def candidate (base : String) : Nat → String
  | 0 => base
  | n + 1 => base ++ "_" ++ natToStr (n + 1)

/-- The `while date_str in self.journal.entries` search of
`JournalUI.create_new_entry`, with explicit fuel: try successive candidates
until one is free.  With fuel `entries.length + 1` the fuel can never run
out before a free candidate is found (the candidates are pairwise distinct,
so at most `entries.length` of them can collide). -/
def create_id_go (entries : EntrySet) (base : String) : Nat → Nat → String
  | counter, 0 => candidate base counter
  | counter, fuel + 1 =>
    if dcontains entries (candidate base counter) then
      create_id_go entries base (counter + 1) fuel
    else candidate base counter

/-- The id `JournalUI.create_new_entry` generates for a given in-memory
entry set and today's date string `base`. -/
def create_new_entry_id (entries : EntrySet) (base : String) : String :=
  create_id_go entries base 0 (entries.length + 1)

/-- The primitive events a `NetworkJournal` method performs, in source
order, for checking the lock discipline. -/
inductive SyncEvent
  | acquireLock
  | releaseLock
  | mutateEntries
  | remoteCall
  | localDiskOp
  deriving DecidableEq, Repr

/-- Event trace of `save_entry` (lines 69–87): `with self.sync_lock:`
around the dict assignment, the POST and the cache write. -/
def save_entry_events : List SyncEvent :=
  [.acquireLock, .mutateEntries, .remoteCall, .localDiskOp, .releaseLock]

/-- Event trace of `delete_entry` (lines 89–104): `with self.sync_lock:`
around the dict deletion, the DELETE and the file removal. -/
def delete_entry_events : List SyncEvent :=
  [.acquireLock, .mutateEntries, .remoteCall, .localDiskOp, .releaseLock]

/-- Event trace of one successful `background_sync` iteration (lines
113–131): the GET happens outside the lock, the merge and the cache rewrite
inside it. -/
def background_sync_events : List SyncEvent :=
  [.remoteCall, .acquireLock, .mutateEntries, .localDiskOp, .releaseLock]

/-- Event trace of the remote-success path of `load_entries` (lines 37–42):
the GET, the wholesale assignment `self.entries = response.json()` and the
cache rewrite — no `with self.sync_lock:` appears anywhere in the method. -/
def load_entries_events : List SyncEvent :=
  [.remoteCall, .mutateEntries, .localDiskOp]

/-- Checks that every `mutateEntries` event of a trace occurs at positive
lock depth, starting from the given depth. -/
def locked_mutations_only : Nat → List SyncEvent → Bool
  | _, [] => true
  | depth, e :: rest =>
    match e with
    | .acquireLock => locked_mutations_only (depth + 1) rest
    | .releaseLock => locked_mutations_only (depth - 1) rest
    | .mutateEntries => decide (0 < depth) && locked_mutations_only depth rest
    | _ => locked_mutations_only depth rest

/-- A foreground operation of the Lifecycle API, with the outcome of its
best-effort remote call. -/
inductive Op
  | save (id : String) (content : Entry) (remote : RemoteResult)
  | remove (id : String) (remote : RemoteResult)
  deriving DecidableEq, Repr

/-- Dispatch one operation to the corresponding `NetworkJournal` method. -/
def applyOp (s : JState) : Op → JState
  | .save id content r => save_entry s id content r
  | .remove id r => delete_entry s id r

/-- Run a sequence of foreground operations. -/
def runOps (s : JState) (ops : List Op) : JState :=
  ops.foldl applyOp s

/-- The state of a journal with no entries and an empty cache directory. -/
def emptyState : JState :=
  { entries := [], disk := [] }

/-! ### Association-map lemmas -/

theorem dget_dset_self {α : Type} (m : List (String × α)) (key : String) (v : α) :
    dget (dset m key v) key = some v := by
  induction m with
  | nil => simp [dset, dget]
  | cons kv rest ih =>
    obtain ⟨k, w⟩ := kv
    by_cases h : k = key
    · simp [dset, h, dget]
    · simp [dset, h, dget, ih]

theorem dget_dset_ne {α : Type} (m : List (String × α)) (key k' : String) (v : α)
    (h : k' ≠ key) : dget (dset m key v) k' = dget m k' := by
  have h' : ¬ key = k' := fun hh => h hh.symm
  induction m with
  | nil => simp [dset, dget, h']
  | cons kv rest ih =>
    obtain ⟨k, w⟩ := kv
    by_cases hk : k = key
    · subst hk
      simp [dset, dget, h']
    · simp only [dset, if_neg hk, dget]
      by_cases hk' : k = k'
      · simp [hk']
      · simp [hk', ih]

theorem dget_ddel_self {α : Type} (m : List (String × α)) (key : String) :
    dget (ddel m key) key = none := by
  induction m with
  | nil => simp [ddel, dget]
  | cons kv rest ih =>
    obtain ⟨k, w⟩ := kv
    by_cases h : k = key
    · simp [ddel, h, ih]
    · simp [ddel, h, dget, ih]

theorem dget_ddel_ne {α : Type} (m : List (String × α)) (key k' : String)
    (h : k' ≠ key) : dget (ddel m key) k' = dget m k' := by
  have h' : ¬ key = k' := fun hh => h hh.symm
  induction m with
  | nil => simp [ddel]
  | cons kv rest ih =>
    obtain ⟨k, w⟩ := kv
    by_cases hk : k = key
    · subst hk
      simp [ddel, dget, h', ih]
    · simp [ddel, hk, dget, ih]

theorem dcontains_iff_mem_dkeys {α : Type} (m : List (String × α)) (key : String) :
    dcontains m key = true ↔ key ∈ dkeys m := by
  induction m with
  | nil => simp [dcontains, dget, dkeys]
  | cons kv rest ih =>
    obtain ⟨k, w⟩ := kv
    by_cases h : k = key
    · subst h
      simp [dcontains, dget, dkeys]
    · have h2 : dcontains ((k, w) :: rest) key = dcontains rest key := by
        simp [dcontains, dget, h]
      have h3 : key ∈ dkeys ((k, w) :: rest) ↔ (key = k ∨ key ∈ dkeys rest) := by
        simp [dkeys]
      have h4 : ¬ key = k := fun hh => h hh.symm
      rw [h2, h3, ih]
      tauto

theorem dcontains_dset {α : Type} (m : List (String × α)) (key k' : String) (v : α) :
    dcontains (dset m key v) k' = true ↔ (k' = key ∨ dcontains m k' = true) := by
  by_cases h : k' = key
  · subst h
    simp [dcontains, dget_dset_self]
  · simp [dcontains, dget_dset_ne m key k' v h, h]

/-! ### Merge lemmas -/

theorem merge_dget_of_not_mem (server : List (String × Entry)) :
    ∀ (entries : EntrySet) (k : String), k ∉ dkeys server →
      dget (merge_server_entries entries server).1 k = dget entries k := by
  induction server with
  | nil => intro entries k _; rfl
  | cons kv rest ih =>
    intro entries k hk
    obtain ⟨key, w⟩ := kv
    have hne : k ≠ key := by
      intro hh
      exact hk (by simp [dkeys, hh])
    have hrest : k ∉ dkeys rest := by
      intro hh
      exact hk (by simp [dkeys] at hh ⊢; exact Or.inr hh)
    simp only [merge_server_entries]
    split
    · rw [ih _ _ hrest, dget_dset_ne _ _ _ _ hne]
    · split
      · split
        · rfl
        · split
          · rfl
          · split
            · rw [ih _ _ hrest, dget_dset_ne _ _ _ _ hne]
            · exact ih _ _ hrest
      · exact ih _ _ hrest

theorem merge_never_removes (server : List (String × Entry)) :
    ∀ (entries : EntrySet) (k : String), dcontains entries k = true →
      dcontains (merge_server_entries entries server).1 k = true := by
  induction server with
  | nil => intro entries k h; exact h
  | cons kv rest ih =>
    intro entries k h
    obtain ⟨key, w⟩ := kv
    have hset : dcontains (dset entries key w) k = true :=
      (dcontains_dset entries key k w).mpr (Or.inr h)
    simp only [merge_server_entries]
    split
    · exact ih _ _ hset
    · split
      · split
        · exact h
        · split
          · exact h
          · split
            · exact ih _ _ hset
            · exact ih _ _ h
      · exact ih _ _ h

theorem mem_dkeys_cons {α : Type} (key k : String) (w : α) (rest : List (String × α)) :
    k ∈ dkeys ((key, w) :: rest) ↔ k = key ∨ k ∈ dkeys rest := by
  simp [dkeys]

theorem nodup_dkeys_cons {α : Type} (key : String) (w : α) (rest : List (String × α))
    (h : (dkeys ((key, w) :: rest)).Nodup) :
    key ∉ dkeys rest ∧ (dkeys rest).Nodup := by
  have h2 : dkeys ((key, w) :: rest) = key :: dkeys rest := rfl
  rw [h2, List.nodup_cons] at h
  exact h

theorem merge_mem_server (server : List (String × Entry)) :
    ∀ (entries : EntrySet) (k : String), k ∈ dkeys server →
      dcontains (merge_server_entries entries server).1 k = true ∨
        (merge_server_entries entries server).2 = false := by
  induction server with
  | nil => intro entries k h; simp [dkeys] at h
  | cons kv rest ih =>
    intro entries k hk
    obtain ⟨key, w⟩ := kv
    by_cases hkey : k = key
    · subst hkey
      simp only [merge_server_entries]
      split
      · left
        exact merge_never_removes rest _ _ ((dcontains_dset entries k k w).mpr (Or.inl rfl))
      · rename_i localEntry heq
        have hpres : dcontains entries k = true := by
          simp [dcontains, heq]
        split
        · split
          · right; rfl
          · split
            · right; rfl
            · split
              · left
                exact merge_never_removes rest _ _
                  ((dcontains_dset entries k k w).mpr (Or.inl rfl))
              · left; exact merge_never_removes rest _ _ hpres
        · left; exact merge_never_removes rest _ _ hpres
    · have hrest : k ∈ dkeys rest := by
        rcases (mem_dkeys_cons key k w rest).mp hk with h | h
        · exact absurd h hkey
        · exact h
      simp only [merge_server_entries]
      split
      · exact ih _ _ hrest
      · split
        · split
          · right; rfl
          · split
            · right; rfl
            · split
              · exact ih _ _ hrest
              · exact ih _ _ hrest
        · exact ih _ _ hrest

theorem merge_dcontains_sources (server : List (String × Entry)) :
    ∀ (entries : EntrySet) (k : String),
      dcontains (merge_server_entries entries server).1 k = true →
      dcontains entries k = true ∨ k ∈ dkeys server := by
  induction server with
  | nil => intro entries k h; exact Or.inl h
  | cons kv rest ih =>
    intro entries k
    obtain ⟨key, w⟩ := kv
    have hdset : dcontains (dset entries key w) k = true →
        dcontains entries k = true ∨ k ∈ dkeys ((key, w) :: rest) := by
      intro h2
      rcases (dcontains_dset entries key k w).mp h2 with h3 | h3
      · exact Or.inr ((mem_dkeys_cons key k w rest).mpr (Or.inl h3))
      · exact Or.inl h3
    have hlift : dcontains entries k = true ∨ k ∈ dkeys rest →
        dcontains entries k = true ∨ k ∈ dkeys ((key, w) :: rest) := by
      intro h2
      rcases h2 with h2 | h2
      · exact Or.inl h2
      · exact Or.inr ((mem_dkeys_cons key k w rest).mpr (Or.inr h2))
    simp only [merge_server_entries]
    split
    · intro h
      rcases ih _ _ h with h2 | h2
      · exact hdset h2
      · exact Or.inr ((mem_dkeys_cons key k w rest).mpr (Or.inr h2))
    · split
      · split
        · exact fun h => Or.inl h
        · split
          · exact fun h => Or.inl h
          · split
            · intro h
              rcases ih _ _ h with h2 | h2
              · exact hdset h2
              · exact Or.inr ((mem_dkeys_cons key k w rest).mpr (Or.inr h2))
            · exact fun h => hlift (ih _ _ h)
      · exact fun h => hlift (ih _ _ h)

theorem merge_keeps_undated (server : List (String × Entry)) :
    ∀ (entries : EntrySet) (k : String) (lv rv : Entry),
      (dkeys server).Nodup →
      dget entries k = some lv → dget server k = some rv →
      (rv.updated_at = none ∨ lv.updated_at = none) →
      dget (merge_server_entries entries server).1 k = some lv := by
  induction server with
  | nil =>
    intro entries k lv rv _ _ hr _
    simp [dget] at hr
  | cons kv rest ih =>
    intro entries k lv rv hnd hl hr hund
    obtain ⟨key, w⟩ := kv
    obtain ⟨hkr, hnd2⟩ := nodup_dkeys_cons key w rest hnd
    by_cases hkey : key = k
    · subst hkey
      have hw : w = rv := by
        simp [dget] at hr
        exact hr
      subst hw
      have hres : dget (merge_server_entries entries rest).1 key = some lv := by
        rw [merge_dget_of_not_mem rest entries key hkr]
        exact hl
      simp only [merge_server_entries, hl]
      cases hru : w.updated_at with
      | none =>
        cases hlu : lv.updated_at with
        | none => simp only [hru, hlu]; exact hres
        | some lraw => simp only [hru, hlu]; exact hres
      | some sraw =>
        have hlu : lv.updated_at = none := by
          rcases hund with h | h
          · rw [hru] at h; cases h
          · exact h
        simp only [hru, hlu]
        exact hres
    · have hr2 : dget rest k = some rv := by
        simpa [dget, hkey] using hr
      have hpres : ∀ v : Entry, dget (dset entries key v) k = some lv := fun v => by
        rw [dget_dset_ne entries key k v (fun hh => hkey hh.symm)]
        exact hl
      simp only [merge_server_entries]
      split
      · exact ih _ _ _ _ hnd2 (hpres w) hr2 hund
      · split
        · split
          · exact hl
          · split
            · exact hl
            · split
              · exact ih _ _ _ _ hnd2 (hpres w) hr2 hund
              · exact ih _ _ _ _ hnd2 hl hr2 hund
        · exact ih _ _ _ _ hnd2 hl hr2 hund

theorem merge_lww (server : List (String × Entry)) :
    ∀ (entries : EntrySet) (k : String) (lv rv : Entry) (lraw sraw : String) (lt st : Nat),
      (dkeys server).Nodup →
      dget entries k = some lv → dget server k = some rv →
      lv.updated_at = some lraw → rv.updated_at = some sraw →
      fromisoformat lraw = some lt → fromisoformat sraw = some st →
      dget (merge_server_entries entries server).1 k = some (if lt < st then rv else lv) ∨
        (merge_server_entries entries server).2 = false := by
  induction server with
  | nil =>
    intro entries k lv rv lraw sraw lt st _ _ hr
    simp [dget] at hr
  | cons kv rest ih =>
    intro entries k lv rv lraw sraw lt st hnd hl hr hlu hru hpl hps
    obtain ⟨key, w⟩ := kv
    obtain ⟨hkr, hnd2⟩ := nodup_dkeys_cons key w rest hnd
    by_cases hkey : key = k
    · subst hkey
      have hw : w = rv := by
        simp [dget] at hr
        exact hr
      subst hw
      left
      simp only [merge_server_entries, hl, hru, hlu, hps, hpl]
      by_cases hlt : lt < st
      · simp only [if_pos hlt]
        rw [merge_dget_of_not_mem rest _ key hkr, dget_dset_self]
      · simp only [if_neg hlt]
        rw [merge_dget_of_not_mem rest _ key hkr]
        exact hl
    · have hr2 : dget rest k = some rv := by
        simpa [dget, hkey] using hr
      have hpres : ∀ v : Entry, dget (dset entries key v) k = some lv := fun v => by
        rw [dget_dset_ne entries key k v (fun hh => hkey hh.symm)]
        exact hl
      simp only [merge_server_entries]
      split
      · exact ih _ _ _ _ _ _ _ _ hnd2 (hpres w) hr2 hlu hru hpl hps
      · split
        · split
          · right; rfl
          · split
            · right; rfl
            · split
              · exact ih _ _ _ _ _ _ _ _ hnd2 (hpres w) hr2 hlu hru hpl hps
              · exact ih _ _ _ _ _ _ _ _ hnd2 hl hr2 hlu hru hpl hps
        · exact ih _ _ _ _ _ _ _ _ hnd2 hl hr2 hlu hru hpl hps

theorem merge_inserts_new (server : List (String × Entry)) :
    ∀ (entries : EntrySet) (k : String) (rv : Entry),
      (dkeys server).Nodup →
      dget entries k = none → dget server k = some rv →
      dget (merge_server_entries entries server).1 k = some rv ∨
        (merge_server_entries entries server).2 = false := by
  induction server with
  | nil =>
    intro entries k rv _ _ hr
    simp [dget] at hr
  | cons kv rest ih =>
    intro entries k rv hnd hl hr
    obtain ⟨key, w⟩ := kv
    obtain ⟨hkr, hnd2⟩ := nodup_dkeys_cons key w rest hnd
    by_cases hkey : key = k
    · subst hkey
      have hw : w = rv := by
        simp [dget] at hr
        exact hr
      subst hw
      left
      simp only [merge_server_entries, hl]
      rw [merge_dget_of_not_mem rest _ key hkr, dget_dset_self]
    · have hr2 : dget rest k = some rv := by
        simpa [dget, hkey] using hr
      have hpres : ∀ v : Entry, dget (dset entries key v) k = none := fun v => by
        rw [dget_dset_ne entries key k v (fun hh => hkey hh.symm)]
        exact hl
      simp only [merge_server_entries]
      split
      · exact ih _ _ _ hnd2 (hpres w) hr2
      · split
        · split
          · right; rfl
          · split
            · right; rfl
            · split
              · exact ih _ _ _ hnd2 (hpres w) hr2
              · exact ih _ _ _ hnd2 hl hr2
        · exact ih _ _ _ hnd2 hl hr2

/-! ### Claim theorems: the reconcile merge (C1, C2, C3) -/

/-- C1 (amended): during a reconcile merge, for an id present both locally
and in the fetched remote set whose two `updated_at` timestamps both parse
— provided the merge loop ran to completion (`hc`: no compared record made
`fromisoformat` raise) — the remote entry replaces the local one exactly
when its timestamp is strictly later, and on equal timestamps the local
entry is kept unchanged.  Without the completion proviso the rule fails:
an abort on an earlier record leaves the local entry in place even when the
remote one is strictly later.  `hnd`: the fetched JSON object has unique
keys, as every Python dict does. -/
theorem claim_C1_last_write_wins (entries server : EntrySet) (k : String)
    (lv rv : Entry) (lraw sraw : String) (lt st : Nat)
    (hnd : (dkeys server).Nodup)
    (hc : (merge_server_entries entries server).2 = true)
    (hl : dget entries k = some lv) (hr : dget server k = some rv)
    (hlu : lv.updated_at = some lraw) (hru : rv.updated_at = some sraw)
    (hpl : fromisoformat lraw = some lt) (hps : fromisoformat sraw = some st) :
    dget (merge_server_entries entries server).1 k =
      some (if lt < st then rv else lv) := by
  rcases merge_lww server entries k lv rv lraw sraw lt st hnd hl hr hlu hru hpl hps with h | h
  · exact h
  · rw [h] at hc
    exact Bool.noConfusion hc

/-- Witness for C1: the spec's own scenario — local content `"a"` at
10:00:00, remote content `"b"` at 11:00:00 on the same id; the remote entry
wins. -/
theorem claim_C1_last_write_wins_witness :
    dget (merge_server_entries
        [("2024-01-01", ⟨some "a", none, some "2024-01-01T10:00:00"⟩)]
        [("2024-01-01", ⟨some "b", none, some "2024-01-01T11:00:00"⟩)]).1 "2024-01-01" =
      some (if 20240101100000000000 < 20240101110000000000
        then (⟨some "b", none, some "2024-01-01T11:00:00"⟩ : Entry)
        else ⟨some "a", none, some "2024-01-01T10:00:00"⟩) :=
  claim_C1_last_write_wins
    [("2024-01-01", ⟨some "a", none, some "2024-01-01T10:00:00"⟩)]
    [("2024-01-01", ⟨some "b", none, some "2024-01-01T11:00:00"⟩)]
    "2024-01-01"
    ⟨some "a", none, some "2024-01-01T10:00:00"⟩
    ⟨some "b", none, some "2024-01-01T11:00:00"⟩
    "2024-01-01T10:00:00" "2024-01-01T11:00:00"
    20240101100000000000 20240101110000000000
    (by decide) (by decide) (by decide) (by decide) rfl rfl (by decide) (by decide)

/-- Counterexample to C1 as stated (without the completion proviso): the
remote record for `2024-01-04` carries an `updated_at` strictly later than
the local one, both fields present and parseable, yet after the merge the
local entry is still in place — the earlier remote record for `2024-01-03`
has the malformed timestamp `"bogus-stamp"`, `datetime.fromisoformat`
raises, the blanket `except Exception: pass` ends the cycle, and the
`2024-01-04` comparison is never reached. -/
theorem claim_C1_counterexample :
    dget (merge_server_entries
        [("2024-01-03", ⟨some "lx", none, some "2024-01-03T10:00:00"⟩),
         ("2024-01-04", ⟨some "lk", none, some "2024-01-04T09:00:00"⟩)]
        [("2024-01-03", ⟨some "rx", none, some "bogus-stamp"⟩),
         ("2024-01-04", ⟨some "rk", none, some "2024-01-04T12:00:00"⟩)]).1 "2024-01-04" =
      some ⟨some "lk", none, some "2024-01-04T09:00:00"⟩ ∧
    fromisoformat "2024-01-04T09:00:00" = some 20240104090000000000 ∧
    fromisoformat "2024-01-04T12:00:00" = some 20240104120000000000 ∧
    20240104090000000000 < 20240104120000000000 :=
  ⟨by decide, by decide, by decide, by decide⟩

/-- C3: during a reconcile merge, an id present on both sides where either
side lacks the `updated_at` field keeps its local entry unconditionally. -/
theorem claim_C3_undated_keeps_local (entries server : EntrySet) (k : String)
    (lv rv : Entry) (hnd : (dkeys server).Nodup)
    (hl : dget entries k = some lv) (hr : dget server k = some rv)
    (hund : rv.updated_at = none ∨ lv.updated_at = none) :
    dget (merge_server_entries entries server).1 k = some lv :=
  merge_keeps_undated server entries k lv rv hnd hl hr hund

/-- Witness for C3: the remote copy of the only id lacks `updated_at`; the
dated local copy survives the merge. -/
theorem claim_C3_undated_keeps_local_witness :
    dget (merge_server_entries
        [("2024-01-01", ⟨some "a", none, some "2024-01-01T10:00:00"⟩)]
        [("2024-01-01", ⟨some "b", none, none⟩)]).1 "2024-01-01" =
      some ⟨some "a", none, some "2024-01-01T10:00:00"⟩ :=
  claim_C3_undated_keeps_local
    [("2024-01-01", ⟨some "a", none, some "2024-01-01T10:00:00"⟩)]
    [("2024-01-01", ⟨some "b", none, none⟩)]
    "2024-01-01"
    ⟨some "a", none, some "2024-01-01T10:00:00"⟩
    ⟨some "b", none, none⟩
    (by decide) (by decide) (by decide) (Or.inl rfl)

/-- C2 (amended): the reconcile merge never removes a locally present id,
and — provided the merge loop ran to completion, i.e. no record aborted it
with a timestamp-parse exception — the resulting key set is exactly the
union of the local and fetched key sets, with every remote-only id inserted
carrying its remote entry. -/
theorem claim_C2_union_no_removal (entries server : EntrySet)
    (hnd : (dkeys server).Nodup) :
    (∀ k, dcontains entries k = true →
        dcontains (merge_server_entries entries server).1 k = true) ∧
    ((merge_server_entries entries server).2 = true →
      (∀ k, dcontains (merge_server_entries entries server).1 k = true ↔
          (dcontains entries k = true ∨ k ∈ dkeys server)) ∧
      (∀ k rv, dget entries k = none → dget server k = some rv →
          dget (merge_server_entries entries server).1 k = some rv)) := by
  constructor
  · exact fun k => merge_never_removes server entries k
  · intro hc
    constructor
    · intro k
      constructor
      · exact merge_dcontains_sources server entries k
      · intro h
        rcases h with h | h
        · exact merge_never_removes server entries k h
        · rcases merge_mem_server server entries k h with h2 | h2
          · exact h2
          · rw [h2] at hc
            exact Bool.noConfusion hc
    · intro k rv hl hr
      rcases merge_inserts_new server entries k rv hnd hl hr with h2 | h2
      · exact h2
      · rw [h2] at hc
        exact Bool.noConfusion hc

/-- Witness for C2: a remote-only id is inserted by a completed merge. -/
theorem claim_C2_union_no_removal_witness :
    dcontains (merge_server_entries
        [("2024-01-01", ⟨some "a", none, none⟩)]
        [("2024-01-02", ⟨some "b", none, none⟩)]).1 "2024-01-02" = true := by
  have h := claim_C2_union_no_removal
      [("2024-01-01", ⟨some "a", none, none⟩)]
      [("2024-01-02", ⟨some "b", none, none⟩)] (by decide)
  exact ((h.2 (by decide)).1 "2024-01-02").mpr (Or.inr (by decide))

/-- Counterexample to C2 as stated: the fetch succeeds (status 200, body
parsed), but the remote record for `2024-01-01` carries the malformed
timestamp `"garbage"`; `datetime.fromisoformat` raises, the blanket
`except Exception: pass` ends the cycle, and the remote-only id
`2024-01-02` never enters the in-memory set — the key set is not the
union. -/
theorem claim_C2_counterexample :
    dcontains (background_sync_step
        ⟨[("2024-01-01", ⟨some "a", none, some "2024-01-01T10:00:00"⟩)], []⟩
        (.response 200
          [("2024-01-01", ⟨some "b", none, some "garbage"⟩),
           ("2024-01-02", ⟨some "c", none, none⟩)])).entries "2024-01-02" = false ∧
    dcontains
        [("2024-01-01", (⟨some "b", none, some "garbage"⟩ : Entry)),
         ("2024-01-02", ⟨some "c", none, none⟩)] "2024-01-02" = true :=
  ⟨by decide, by decide⟩

/-! ### Claim theorems: save durability, load fallback, cache frame (C4, C5, C10) -/

/-- C4: `save_entry` sets the in-memory map at the id to exactly the given
entry and writes the corresponding cache record, identically for every
outcome of the best-effort remote POST: the remote result is discarded and
a remote failure never reaches the caller (the function is total in the
remote outcome and independent of it). -/
theorem claim_C4_save_local_durability (s : JState) (date_str : String)
    (content : Entry) (remote : RemoteResult) :
    dget (save_entry s date_str content remote).entries date_str = some content ∧
    dget (save_entry s date_str content remote).disk date_str = some (some content) ∧
    save_entry s date_str content remote = save_entry s date_str content .ok := by
  cases remote <;> exact ⟨dget_dset_self _ _ _, dget_dset_self _ _ _, rfl⟩

/-- C5: when the fetch raises or returns a non-200 status, `load_entries`
populates the in-memory set from the local cache files and leaves the disk
untouched (the function is total: no error escapes to the caller); on a 200
response the in-memory set is replaced wholesale by the remote body. -/
theorem claim_C5_load_fallback (s : JState) :
    (load_entries s .exception = { entries := readAll s.disk, disk := s.disk }) ∧
    (∀ status body, status ≠ 200 →
      load_entries s (.response status body) =
        { entries := readAll s.disk, disk := s.disk }) ∧
    (∀ body, load_entries s (.response 200 body) =
      { entries := body, disk := update_local_cache body s.disk }) := by
  refine ⟨rfl, ?_, fun body => rfl⟩
  intro status body h
  simp only [load_entries]
  split
  · rename_i heq
    injection heq with h1 h2
    exact absurd h1 h
  · rfl

/-- Witness for C5: a 503 response makes `load_entries` bootstrap from the
cache directory. -/
theorem claim_C5_load_fallback_witness :
    load_entries ⟨[], [("2024-01-01", some ⟨some "a", none, none⟩)]⟩
        (.response 503 []) =
      ⟨readAll [("2024-01-01", some ⟨some "a", none, none⟩)],
        [("2024-01-01", some ⟨some "a", none, none⟩)]⟩ :=
  (claim_C5_load_fallback
    ⟨[], [("2024-01-01", some ⟨some "a", none, none⟩)]⟩).2.1 503 [] (by decide)

theorem update_local_cache_not_mem (entries : EntrySet) :
    ∀ (disk : Disk) (k : String), k ∉ dkeys entries →
      dget (update_local_cache entries disk) k = dget disk k := by
  induction entries with
  | nil => intro disk k _; rfl
  | cons kv rest ih =>
    intro disk k hk
    obtain ⟨key, w⟩ := kv
    have hne : k ≠ key := fun hh => hk ((mem_dkeys_cons key k w rest).mpr (Or.inl hh))
    have hrest : k ∉ dkeys rest := fun hh => hk ((mem_dkeys_cons key k w rest).mpr (Or.inr hh))
    show dget (update_local_cache rest (dset disk key (some w))) k = dget disk k
    rw [ih _ _ hrest, dget_dset_ne _ _ _ _ hne]

theorem update_local_cache_mem (entries : EntrySet) :
    ∀ (disk : Disk) (k : String) (v : Entry), (dkeys entries).Nodup →
      dget entries k = some v →
      dget (update_local_cache entries disk) k = some (some v) := by
  induction entries with
  | nil => intro disk k v _ h; simp [dget] at h
  | cons kv rest ih =>
    intro disk k v hnd h
    obtain ⟨key, w⟩ := kv
    obtain ⟨hkr, hnd2⟩ := nodup_dkeys_cons key w rest hnd
    by_cases hkey : key = k
    · subst hkey
      have hw : w = v := by
        simp [dget] at h
        exact h
      subst hw
      show dget (update_local_cache rest (dset disk key (some w))) key = some (some w)
      rw [update_local_cache_not_mem rest _ key hkr, dget_dset_self]
    · have h2 : dget rest k = some v := by simpa [dget, hkey] using h
      show dget (update_local_cache rest (dset disk key (some w))) k = some (some v)
      exact ih _ _ _ hnd2 h2

/-- C10: the bulk cache rewrite writes one record per id of the in-memory
map (unique keys, as for every Python dict) and leaves every on-disk record
for an id outside the map untouched — it never deletes stale records; in
particular after a successful `load_entries` the cache records of ids
absent from the remote body survive on disk. -/
theorem claim_C10_cache_write_frame (entries : EntrySet) (disk : Disk) :
    ((dkeys entries).Nodup → ∀ k v, dget entries k = some v →
      dget (update_local_cache entries disk) k = some (some v)) ∧
    (∀ k, dget entries k = none →
      dget (update_local_cache entries disk) k = dget disk k) ∧
    (∀ (s : JState) (k : String), dget entries k = none →
      dget (load_entries s (.response 200 entries)).disk k = dget s.disk k) := by
  refine ⟨fun hnd k v h => update_local_cache_mem entries disk k v hnd h, ?_, ?_⟩
  · intro k h
    apply update_local_cache_not_mem
    intro hk
    rw [← dcontains_iff_mem_dkeys] at hk
    simp [dcontains, h] at hk
  · intro s k h
    simp only [load_entries]
    apply update_local_cache_not_mem
    intro hk
    rw [← dcontains_iff_mem_dkeys] at hk
    simp [dcontains, h] at hk

/-- Witness for C10: after a successful load whose remote body lacks
`2023-12-31`, the stale cache record for `2023-12-31` is still on disk. -/
theorem claim_C10_cache_write_frame_witness :
    dget (load_entries
        ⟨[], [("2023-12-31", some ⟨some "old", none, none⟩)]⟩
        (.response 200 [("2024-01-01", ⟨some "new", none, none⟩)])).disk "2023-12-31" =
      some (some ⟨some "old", none, none⟩) := by
  have h := (claim_C10_cache_write_frame
      [("2024-01-01", ⟨some "new", none, none⟩)]
      [("2023-12-31", some ⟨some "old", none, none⟩)]).2.2
      ⟨[], [("2023-12-31", some ⟨some "old", none, none⟩)]⟩ "2023-12-31" (by decide)
  rw [h]
  decide

/-! ### Claim theorems: malformed records (C6), lock discipline (C7),
memory/disk convergence (C9) -/

/-- C6 (amended): in the local bulk read a record that fails to parse is
skipped with a diagnostic and every remaining record is still processed;
in the reconcile merge, by contrast, a compared record whose `updated_at`
fails to parse ends the merge loop — the records merged so far are kept,
the remaining records are never examined, and the cache rewrite is skipped
for that cycle. -/
theorem claim_C6_malformed_record (acc : EntrySet) (files1 files2 : Disk) (name : String) :
    (load_cache_files acc (files1 ++ (name, none) :: files2) =
      load_cache_files acc (files1 ++ files2)) ∧
    (∀ (entries : EntrySet) (k : String) (v lv : Entry)
        (rest : List (String × Entry)) (sraw lraw : String),
      dget entries k = some lv → v.updated_at = some sraw →
      lv.updated_at = some lraw → fromisoformat sraw = none →
      merge_server_entries entries ((k, v) :: rest) = (entries, false)) ∧
    (∀ (s : JState) (body merged : EntrySet),
      merge_server_entries s.entries body = (merged, false) →
      background_sync_step s (.response 200 body) = ⟨merged, s.disk⟩) := by
  refine ⟨?_, ?_, ?_⟩
  · induction files1 generalizing acc with
    | nil =>
      show load_cache_files acc ((name, none) :: files2) = load_cache_files acc files2
      rfl
    | cons f rest ih =>
      obtain ⟨fname, parsed⟩ := f
      cases parsed with
      | none => exact ih _
      | some e => exact ih _
  · intro entries k v lv rest sraw lraw hl hv hlv hparse
    simp only [merge_server_entries, hl, hv, hlv, hparse]
  · intro s body merged h
    simp only [background_sync_step, h]

/-- Witness for C6: a remote record whose `updated_at` is `"not-a-date"`
makes the merge return with the abort flag and the local state unchanged. -/
theorem claim_C6_malformed_record_witness :
    merge_server_entries
        [("2024-02-02", ⟨some "x", none, some "2024-02-02T08:00:00"⟩)]
        [("2024-02-02", ⟨some "y", none, some "not-a-date"⟩),
         ("2024-02-03", ⟨some "z", none, none⟩)] =
      ([("2024-02-02", ⟨some "x", none, some "2024-02-02T08:00:00"⟩)], false) :=
  (claim_C6_malformed_record [] [] [] "unused").2.1
    [("2024-02-02", ⟨some "x", none, some "2024-02-02T08:00:00"⟩)]
    "2024-02-02"
    ⟨some "y", none, some "not-a-date"⟩
    ⟨some "x", none, some "2024-02-02T08:00:00"⟩
    [("2024-02-03", ⟨some "z", none, none⟩)]
    "not-a-date" "2024-02-02T08:00:00"
    (by decide) rfl rfl (by decide)

/-- Counterexample to C6 as stated: during the reconcile merge one remote
record that fails to parse aborts the whole merge — the record after it is
never processed, so a malformed record does abort the overall merge. -/
theorem claim_C6_counterexample :
    (merge_server_entries
        [("2024-02-02", ⟨some "x", none, some "2024-02-02T08:00:00"⟩)]
        [("2024-02-02", ⟨some "y", none, some "not-a-date"⟩),
         ("2024-02-03", ⟨some "z", none, none⟩)]).2 = false ∧
    dcontains (merge_server_entries
        [("2024-02-02", ⟨some "x", none, some "2024-02-02T08:00:00"⟩)]
        [("2024-02-02", ⟨some "y", none, some "not-a-date"⟩),
         ("2024-02-03", ⟨some "z", none, none⟩)]).1 "2024-02-03" = false :=
  ⟨by decide, by decide⟩

/-- C7 (amended): `save_entry`, `delete_entry` and the background reconcile
each perform their in-memory mutation while holding `sync_lock` — so those
three never interleave their mutations — but `load_entries`, the
load/bootstrap path (reachable concurrently through the UI's manual
refresh), mutates the entry map without acquiring the lock. -/
theorem claim_C7_lock_discipline :
    locked_mutations_only 0 save_entry_events = true ∧
    locked_mutations_only 0 delete_entry_events = true ∧
    locked_mutations_only 0 background_sync_events = true ∧
    locked_mutations_only 0 load_entries_events = false :=
  ⟨rfl, rfl, rfl, rfl⟩

/-- Counterexample to C7 as stated: the `load_entries` trace mutates the
entry map (line 39 assigns `self.entries`) at lock depth zero — no
`with self.sync_lock:` appears anywhere in the method. -/
theorem claim_C7_counterexample :
    SyncEvent.mutateEntries ∈ load_entries_events ∧
    locked_mutations_only 0 load_entries_events = false :=
  ⟨by decide, rfl⟩

/-- The in-memory entry map and the parsed on-disk mirror agree at every
id. -/
def mirrors (s : JState) : Prop :=
  ∀ k, dget s.entries k = (dget s.disk k).join

theorem mirrors_applyOp (s : JState) (op : Op) (h : mirrors s) :
    mirrors (applyOp s op) := by
  cases op with
  | save id content r =>
    intro k
    by_cases hk : k = id
    · subst hk
      cases r <;>
        · show dget (dset s.entries k content) k =
            (dget (dset s.disk k (some content)) k).join
          rw [dget_dset_self, dget_dset_self]
          rfl
    · cases r <;>
        · show dget (dset s.entries id content) k =
            (dget (dset s.disk id (some content)) k).join
          rw [dget_dset_ne _ _ _ _ hk, dget_dset_ne _ _ _ _ hk]
          exact h k
  | remove id r =>
    intro k
    by_cases hk : k = id
    · subst hk
      cases r <;>
        · show dget (ddel s.entries k) k = (dget (ddel s.disk k) k).join
          rw [dget_ddel_self, dget_ddel_self]
          rfl
    · cases r <;>
        · show dget (ddel s.entries id) k = (dget (ddel s.disk id) k).join
          rw [dget_ddel_ne _ _ _ hk, dget_ddel_ne _ _ _ hk]
          exact h k

theorem runOps_mirrors (ops : List Op) :
    ∀ (s : JState), mirrors s → mirrors (runOps s ops) := by
  induction ops with
  | nil => intro s h; exact h
  | cons op rest ih => intro s h; exact ih _ (mirrors_applyOp s op h)

/-- C9: starting from the empty journal state, after any finite sequence of
save/remove operations (whatever each best-effort remote call returned),
the in-memory entry map equals the parsed local-storage mirror at every
id: each save leaves its record on disk with the saved entry, each remove
leaves no record for its id. -/
theorem claim_C9_memory_disk_convergence (ops : List Op) :
    mirrors (runOps emptyState ops) :=
  runOps_mirrors ops emptyState (fun _ => rfl)

/-! ### Claim C8: fresh id generation in `create_new_entry` -/

theorem digitChar_round : ∀ d, d < 10 → (digitChar d).toNat - 48 = d := by decide

theorem string_append_data (a b : String) : (a ++ b).data = a.data ++ b.data := rfl

theorem map_digitChar_inj (l1 l2 : List Nat) (h1 : ∀ x ∈ l1, x < 10)
    (h2 : ∀ x ∈ l2, x < 10) (h : l1.map digitChar = l2.map digitChar) :
    l1 = l2 := by
  have hgen : ∀ l : List Nat, (∀ x ∈ l, x < 10) →
      (l.map digitChar).map (fun c => c.toNat - 48) = l := by
    intro l hl
    rw [List.map_map]
    have hcong : List.map ((fun c => Char.toNat c - 48) ∘ digitChar) l = List.map id l :=
      List.map_congr_left (fun x hx => digitChar_round x (hl x hx))
    rw [hcong, List.map_id]
  have h3 := congrArg (List.map (fun c => c.toNat - 48)) h
  rwa [hgen l1 h1, hgen l2 h2] at h3

theorem natToStr_data_inj (a b : Nat) (ha : a ≠ 0) (hb : b ≠ 0)
    (h : (natToStr a).data = (natToStr b).data) : a = b := by
  unfold natToStr at h
  rw [if_neg ha, if_neg hb] at h
  have h2 : ((Nat.digits 10 a).map digitChar).reverse =
      ((Nat.digits 10 b).map digitChar).reverse := h
  have h3 := congrArg List.reverse h2
  simp only [List.reverse_reverse] at h3
  have h4 := map_digitChar_inj _ _
    (fun x hx => Nat.digits_lt_base (by norm_num) hx)
    (fun x hx => Nat.digits_lt_base (by norm_num) hx) h3
  have h5 := congrArg (Nat.ofDigits 10) h4
  rwa [Nat.ofDigits_digits, Nat.ofDigits_digits] at h5

theorem candidate_data_succ (base : String) (n : Nat) :
    (candidate base (n + 1)).data = base.data ++ '_' :: (natToStr (n + 1)).data := by
  show ((base ++ "_") ++ natToStr (n + 1)).data = _
  rw [string_append_data, string_append_data]
  simp

theorem candidate_inj (base : String) : Function.Injective (candidate base) := by
  intro i j h
  match i, j with
  | 0, 0 => rfl
  | 0, j + 1 =>
    exfalso
    have hd := congrArg String.data h
    rw [candidate_data_succ] at hd
    have hlen := congrArg List.length hd
    simp only [candidate, List.length_append, List.length_cons] at hlen
    omega
  | i + 1, 0 =>
    exfalso
    have hd := congrArg String.data h
    rw [candidate_data_succ] at hd
    have hlen := congrArg List.length hd
    simp only [candidate, List.length_append, List.length_cons] at hlen
    omega
  | i + 1, j + 1 =>
    have hd := congrArg String.data h
    rw [candidate_data_succ, candidate_data_succ] at hd
    have h2 := List.append_cancel_left hd
    injection h2 with h2a h2b
    have h3 := natToStr_data_inj (i + 1) (j + 1)
      (Nat.succ_ne_zero i) (Nat.succ_ne_zero j) h2b
    omega

theorem exists_free_candidate (entries : EntrySet) (base : String) :
    ∃ d, d ≤ entries.length ∧ dcontains entries (candidate base d) = false := by
  by_contra hc
  push_neg at hc
  have hmem : ∀ d, d ≤ entries.length → candidate base d ∈ dkeys entries := by
    intro d hd
    have hne := hc d hd
    rw [← dcontains_iff_mem_dkeys]
    cases hb : dcontains entries (candidate base d) with
    | false => exact absurd hb hne
    | true => rfl
  have hnodup : ((List.range (entries.length + 1)).map (candidate base)).Nodup :=
    (List.nodup_range _).map (candidate_inj base)
  have hsub : (List.range (entries.length + 1)).map (candidate base) ⊆ dkeys entries := by
    intro x hx
    simp only [List.mem_map, List.mem_range] at hx
    obtain ⟨d, hd, rfl⟩ := hx
    exact hmem d (by omega)
  have hle := (hnodup.subperm hsub).length_le
  have hkl : (dkeys entries).length = entries.length := by
    simp [dkeys]
  simp only [List.length_map, List.length_range] at hle
  omega

theorem create_id_go_spec (entries : EntrySet) (base : String) :
    ∀ (fuel counter : Nat),
      (∃ d, d < fuel ∧ dcontains entries (candidate base (counter + d)) = false) →
      ∃ d, create_id_go entries base counter fuel = candidate base (counter + d) ∧
        dcontains entries (candidate base (counter + d)) = false ∧
        ∀ e < d, dcontains entries (candidate base (counter + e)) = true := by
  intro fuel
  induction fuel with
  | zero =>
    intro counter hex
    obtain ⟨d, hd, _⟩ := hex
    exact absurd hd (Nat.not_lt_zero d)
  | succ fuel ih =>
    intro counter hex
    by_cases h : dcontains entries (candidate base counter) = true
    · obtain ⟨d, hd, hfree⟩ := hex
      have hd0 : d ≠ 0 := by
        intro h0
        rw [h0, Nat.add_zero] at hfree
        rw [h] at hfree
        exact Bool.noConfusion hfree
      obtain ⟨d', rfl⟩ : ∃ d', d = d' + 1 := ⟨d - 1, by omega⟩
      have hex2 : ∃ e, e < fuel ∧
          dcontains entries (candidate base (counter + 1 + e)) = false := by
        refine ⟨d', by omega, ?_⟩
        rw [show counter + 1 + d' = counter + (d' + 1) by omega]
        exact hfree
      obtain ⟨e, heq, hfree2, hmin⟩ := ih (counter + 1) hex2
      refine ⟨e + 1, ?_, ?_, ?_⟩
      · simp only [create_id_go, if_pos h]
        rw [heq]
        rw [show counter + 1 + e = counter + (e + 1) by omega]
      · rw [show counter + (e + 1) = counter + 1 + e by omega]
        exact hfree2
      · intro f hf
        cases f with
        | zero =>
          rw [Nat.add_zero]
          exact h
        | succ f' =>
          have hm := hmin f' (by omega)
          rw [show counter + (f' + 1) = counter + 1 + f' by omega]
          exact hm
    · refine ⟨0, ?_, ?_, ?_⟩
      · simp only [create_id_go, if_neg h]
        rw [Nat.add_zero]
      · rw [Nat.add_zero]
        cases hb : dcontains entries (candidate base counter) with
        | false => rfl
        | true => exact absurd hb h
      · intro f hf
        exact absurd hf (Nat.not_lt_zero f)

theorem create_new_entry_id_spec (entries : EntrySet) (base : String) :
    ∃ n, create_new_entry_id entries base = candidate base n ∧
      dcontains entries (candidate base n) = false ∧
      ∀ m < n, dcontains entries (candidate base m) = true := by
  obtain ⟨d, hd, hfree⟩ := exists_free_candidate entries base
  have hex : ∃ e, e < entries.length + 1 ∧
      dcontains entries (candidate base (0 + e)) = false :=
    ⟨d, by omega, by rw [Nat.zero_add]; exact hfree⟩
  obtain ⟨e, heq, hfree2, hmin⟩ := create_id_go_spec entries base (entries.length + 1) 0 hex
  rw [Nat.zero_add] at heq hfree2
  refine ⟨e, heq, hfree2, fun f hf => ?_⟩
  have := hmin f hf
  rwa [Nat.zero_add] at this

/-- C8: `create_new_entry` always generates an id not already in the entry
map (the suffix-search loop finds a free candidate within
`entries.length + 1` probes for every finite map): today's date `base`
itself when free, otherwise the first free suffixed candidate; in
particular, from a state where `base` and `base_1` are both free, two
creations on the same day — the second after saving the first — yield
`base` and then `base_1`. -/
theorem claim_C8_create_fresh_id (entries : EntrySet) (base : String) :
    (dcontains entries (create_new_entry_id entries base) = false) ∧
    (∃ n, create_new_entry_id entries base = candidate base n ∧
      dcontains entries (candidate base n) = false ∧
      ∀ m < n, dcontains entries (candidate base m) = true) ∧
    (dcontains entries base = false → create_new_entry_id entries base = base) ∧
    (dcontains entries base = false → dcontains entries (candidate base 1) = false →
      ∀ (disk : Disk) (e : Entry) (r : RemoteResult),
        create_new_entry_id entries base = base ∧
        create_new_entry_id (save_entry ⟨entries, disk⟩ base e r).entries base =
          candidate base 1) := by
  obtain ⟨n, heq, hfree, hmin⟩ := create_new_entry_id_spec entries base
  have hfirst : dcontains entries base = false → create_new_entry_id entries base = base := by
    intro hb
    cases n with
    | zero => exact heq
    | succ n' =>
      have hm := hmin 0 (Nat.succ_pos n')
      rw [show candidate base 0 = base from rfl] at hm
      rw [hm] at hb
      exact Bool.noConfusion hb
  refine ⟨by rw [heq]; exact hfree, ⟨n, heq, hfree, hmin⟩, hfirst, ?_⟩
  intro hb h1 disk e r
  refine ⟨hfirst hb, ?_⟩
  have hentries2 : (save_entry ⟨entries, disk⟩ base e r).entries = dset entries base e := by
    cases r <;> rfl
  rw [hentries2]
  obtain ⟨m, heq2, hfree2, hmin2⟩ := create_new_entry_id_spec (dset entries base e) base
  have hc0 : dcontains (dset entries base e) (candidate base 0) = true := by
    show dcontains (dset entries base e) base = true
    simp [dcontains, dget_dset_self]
  have hne1 : candidate base 1 ≠ base :=
    fun hh => Nat.one_ne_zero (candidate_inj base hh)
  have hc1 : dcontains (dset entries base e) (candidate base 1) = false := by
    unfold dcontains
    rw [dget_dset_ne _ _ _ _ hne1]
    exact h1
  have hm0 : m ≠ 0 := by
    intro h0
    rw [h0, hc0] at hfree2
    exact Bool.noConfusion hfree2
  have hm2 : m < 2 := by
    by_contra hge
    push_neg at hge
    have hx := hmin2 1 (by omega)
    rw [hc1] at hx
    exact Bool.noConfusion hx
  have hm : m = 1 := by omega
  rw [hm] at heq2
  exact heq2

/-- Witness for C8: on an empty journal, the first creation on day
`2024-03-05` takes the bare date as id, and after saving it the second
creation the same day takes the `_1`-suffixed id. -/
theorem claim_C8_create_fresh_id_witness :
    create_new_entry_id [] "2024-03-05" = "2024-03-05" ∧
    create_new_entry_id
        (save_entry ⟨[], []⟩ "2024-03-05" ⟨some "", none, none⟩ .ok).entries
        "2024-03-05" = candidate "2024-03-05" 1 :=
  (claim_C8_create_fresh_id [] "2024-03-05").2.2.2 rfl rfl [] ⟨some "", none, none⟩ .ok
